import Mathlib

/-
Verification of the SQL safety-validation engine of the redshift-mcp-server
repository.

The development shallowly embeds the three core components:
  - the statement classifier (src/utils.py: is_read_only_expression, validate_sql),
  - the suspicious-pattern guard (src/constants.py: SUSPICIOUS_QUERY_REGEXP;
    src/utils.py: check_for_suspicious_sql),
  - the literal-quoting helper (src/utils.py: quote_sql_literal),
together with the ordering of the two gates in the execute_sql_tool handler
(src/server.py).

External collaborators (the sqlglot parser, the sqlalchemy literal renderer)
are not part of the repository source; they are represented abstractly (the
parser as a function parameter) or modelled from the specification where it
describes their contract.
-/

namespace RedshiftMCP

/-- Whitespace test modelling the Python notion of whitespace used both by
str.strip() and by the regex class for whitespace, restricted to the ASCII
range (space, tab, newline, carriage return, vertical tab, form feed). -/
def isWS (c : Char) : Bool :=
  c = ' ' || c = '\t' || c = '\n' || c = '\r' || c = '\x0b' || c = '\x0c'

/-- Python str.upper restricted to the ASCII range: uppercase every character. -/
def pyUpper (s : String) : String := String.mk (s.data.map Char.toUpper)

/-! ## The abstract syntax tree of sqlglot expressions

The classifier in src/utils.py only ever discriminates the sqlglot node
classes Select, Describe, Command, Values, CTE and Subquery; every other node
class is an opaque carrier of children. A Command node carries its verb
(exp.this, a string in sqlglot, possibly absent). CTE and Subquery nodes
carry their body (node.this) as a distinguished child, plus further children.
-/

inductive Expr where
  | select (args : List Expr)
  | describe (args : List Expr)
  | command (verb : Option String) (args : List Expr)
  | values (args : List Expr)
  | cte (body : Expr) (args : List Expr)
  | subquery (body : Expr) (args : List Expr)
  | other (args : List Expr)

/-- Direct children of a node; for CTE and Subquery the body is a child. -/
def Expr.children : Expr → List Expr
  | .select args => args
  | .describe args => args
  | .command _ args => args
  | .values args => args
  | .cte body args => body :: args
  | .subquery body args => body :: args
  | .other args => args

mutual
/-- Model of sqlglot Expression.walk: the node itself followed by the walk of
every child, depth first. -/
def Expr.walk : Expr → List Expr
  | .select args => .select args :: walkList args
  | .describe args => .describe args :: walkList args
  | .command verb args => .command verb args :: walkList args
  | .values args => .values args :: walkList args
  | .cte body args => .cte body args :: (Expr.walk body ++ walkList args)
  | .subquery body args => .subquery body args :: (Expr.walk body ++ walkList args)
  | .other args => .other args :: walkList args

/-- Walk of a list of nodes, in order. -/
def walkList : List Expr → List Expr
  | [] => []
  | e :: es => Expr.walk e ++ walkList es
end

/-- The walk of a node is the node followed by the walks of its children. -/
theorem walk_eq (e : Expr) : Expr.walk e = e :: walkList e.children := by
  cases e <;> simp [Expr.walk, Expr.children, walkList]

/-- Model of the isinstance(node, (Select, Values)) test from
is_read_only_expression. -/
def isSelectOrValues : Expr → Bool
  | .select _ => true
  | .values _ => true
  | _ => false

/-- Model of the test on a Command verb in is_read_only_expression:
exp.this must be truthy (present and nonempty) and its uppercase must be
EXPLAIN or SHOW. -/
def commandVerbOk : Option String → Bool
  | none => false
  | some v => (!v.isEmpty) && (pyUpper v == "EXPLAIN" || pyUpper v == "SHOW")

/-- Model of the top-level check at the head of is_read_only_expression. -/
def topLevelCheck : Expr → Bool
  | .select _ => true
  | .describe _ => true
  | .command verb _ => commandVerbOk verb
  | _ => false

/-- Model of the per-node check inside the walk loop of
is_read_only_expression: a CTE or Subquery node must have a Select or Values
body; all other nodes pass. -/
def nodeBodyOk : Expr → Bool
  | .cte body _ => isSelectOrValues body
  | .subquery body _ => isSelectOrValues body
  | _ => true

/-- Model of is_read_only_expression from src/utils.py: the top-level check,
then the walk over the whole tree checking every CTE and Subquery body. -/
def is_read_only_expression (e : Expr) : Bool :=
  topLevelCheck e && (Expr.walk e).all nodeBodyOk

/-! ## validate_sql

sqlglot.parse is not part of the repository; it is abstracted as a function
from the SQL text to either a raised parser error (Except.error, matching the
exceptional exit of sqlglot.parse on malformed input, which validate_sql does
not catch) or the returned list of optional statements. -/

/-- Abstract type of the external sqlglot.parse call as used by validate_sql:
either it raises (error) or returns a list of optional statements. -/
def ParseFn : Type := String → Except String (List (Option Expr))

/-- The rejection message used for unparseable or non-read-only statements,
with the original SQL echoed after a newline. -/
def notValidMsg (sql : String) : String :=
  "Not a valid SQL statement. Only SELECT, DESCRIBE, SHOW and EXPLAIN statements are allowed.\nInvalid SQL statement: " ++ sql

/-- Model of validate_sql from src/utils.py. An uncaught exception from the
parser propagates as Except.error; every normal return is Except.ok with the
(is_read_only, message) pair the Python function returns. The empty check
models "not sql.strip()"; indexing processed_sql[0] on an empty list is an
IndexError, modelled as an error exit. -/
def validate_sql (parse : ParseFn) (sql : String) : Except String (Bool × String) :=
  if sql.data.all isWS then
    .ok (false, "SQL statement cannot be empty or whitespace.")
  else
    match parse sql with
    | .error e => .error e
    | .ok processed =>
      if 1 < processed.length then
        .ok (false, "Only one SQL statement is allowed at a time.")
      else
        match processed with
        | [] => .error "IndexError: list index out of range"
        | e0 :: _ =>
          match e0 with
          | none => .ok (false, notValidMsg sql)
          | some e =>
            if is_read_only_expression e then
              .ok (true, "This is a read-only SQL statement.")
            else
              .ok (false, notValidMsg sql)

/-! ## Specification-side statement of the read-only shape (claim C1)

The claim quantifies over every node anywhere in the parsed tree; Occurs is
the reflexive-transitive descent through children. -/

/-- A node occurs in a tree if it is the root or occurs in a child. -/
inductive Occurs : Expr → Expr → Prop where
  | refl (e : Expr) : Occurs e e
  | child {n c e : Expr} : c ∈ Expr.children e → Occurs n c → Occurs n e

/-- Specification-side top-level condition: the top-level construct is a
Select, a Describe, or a Command whose verb is EXPLAIN or SHOW compared
case-insensitively. -/
def SpecTopLevel : Expr → Prop
  | .select _ => True
  | .describe _ => True
  | .command verb _ => ∃ s, verb = some s ∧ (pyUpper s = "EXPLAIN" ∨ pyUpper s = "SHOW")
  | _ => False

/-- Specification-side per-node condition: every CTE node and every Subquery
node has a body that is a Select or a Values construct. -/
def SpecNodeOk : Expr → Prop
  | .cte body _ => (∃ a, body = .select a) ∨ (∃ a, body = .values a)
  | .subquery body _ => (∃ a, body = .select a) ∨ (∃ a, body = .values a)
  | _ => True

/-- Specification-side read-only shape from the claim: top-level condition
plus the per-node condition at every node anywhere in the tree. -/
def SpecReadOnly (e : Expr) : Prop :=
  SpecTopLevel e ∧ ∀ n, Occurs n e → SpecNodeOk n

theorem mem_walkList_iff (l : List Expr) (n : Expr) :
    n ∈ walkList l ↔ ∃ c ∈ l, n ∈ Expr.walk c := by
  induction l with
  | nil => simp [walkList]
  | cons e es ih => simp [walkList, ih]

theorem self_mem_walk (e : Expr) : e ∈ Expr.walk e := by
  rw [walk_eq]; exact List.mem_cons_self _ _

theorem mem_walk_of_occurs {n e : Expr} (h : Occurs n e) : n ∈ Expr.walk e := by
  induction h with
  | refl => exact self_mem_walk _
  | child hc _ ih =>
    rw [walk_eq]
    exact List.mem_cons_of_mem _ ((mem_walkList_iff _ _).mpr ⟨_, hc, ih⟩)

theorem sizeOf_lt_of_mem_children {c e : Expr} (h : c ∈ Expr.children e) :
    sizeOf c < sizeOf e := by
  have hlt := List.sizeOf_lt_of_mem h
  cases e <;> simp only [Expr.children] at h hlt ⊢ <;> simp_all <;> omega

theorem occurs_of_mem_walk : ∀ e n : Expr, n ∈ Expr.walk e → Occurs n e := by
  intro e n h
  rw [walk_eq] at h
  rcases List.mem_cons.mp h with rfl | h2
  · exact Occurs.refl _
  · obtain ⟨c, hc, hnc⟩ := (mem_walkList_iff _ _).mp h2
    exact Occurs.child hc (occurs_of_mem_walk c n hnc)
termination_by e => sizeOf e
decreasing_by exact sizeOf_lt_of_mem_children hc

theorem topLevelCheck_iff (e : Expr) : topLevelCheck e = true ↔ SpecTopLevel e := by
  cases e with
  | command verb args =>
    cases verb with
    | none => simp [topLevelCheck, commandVerbOk, SpecTopLevel]
    | some s =>
      simp only [topLevelCheck, commandVerbOk, SpecTopLevel]
      constructor
      · intro h
        simp only [Bool.and_eq_true, Bool.or_eq_true, beq_iff_eq] at h
        exact ⟨s, rfl, h.2⟩
      · rintro ⟨t, ht, hup⟩
        obtain rfl : s = t := by injection ht
        have hne : ¬ s.isEmpty = true := by
          intro hemp
          rw [String.isEmpty_iff] at hemp
          subst hemp
          rcases hup with h | h <;> exact absurd h (by decide)
        simp only [Bool.and_eq_true, Bool.or_eq_true, beq_iff_eq, Bool.not_eq_true']
        exact ⟨by simpa using hne, hup⟩
  | select args => simp [topLevelCheck, SpecTopLevel]
  | describe args => simp [topLevelCheck, SpecTopLevel]
  | values args => simp [topLevelCheck, SpecTopLevel]
  | cte body args => simp [topLevelCheck, SpecTopLevel]
  | subquery body args => simp [topLevelCheck, SpecTopLevel]
  | other args => simp [topLevelCheck, SpecTopLevel]

theorem nodeBodyOk_iff (n : Expr) : nodeBodyOk n = true ↔ SpecNodeOk n := by
  cases n with
  | cte body args =>
    cases body <;> simp [nodeBodyOk, isSelectOrValues, SpecNodeOk]
  | subquery body args =>
    cases body <;> simp [nodeBodyOk, isSelectOrValues, SpecNodeOk]
  | select args => simp [nodeBodyOk, SpecNodeOk]
  | describe args => simp [nodeBodyOk, SpecNodeOk]
  | command verb args => simp [nodeBodyOk, SpecNodeOk]
  | values args => simp [nodeBodyOk, SpecNodeOk]
  | other args => simp [nodeBodyOk, SpecNodeOk]

/-- The code-side classifier agrees with the specification-side read-only
shape on every tree. -/
theorem is_read_only_iff_spec (e : Expr) :
    is_read_only_expression e = true ↔ SpecReadOnly e := by
  unfold is_read_only_expression SpecReadOnly
  rw [Bool.and_eq_true, List.all_eq_true, topLevelCheck_iff]
  constructor
  · rintro ⟨h1, h2⟩
    refine ⟨h1, fun n hocc => ?_⟩
    exact (nodeBodyOk_iff n).mp (h2 n (mem_walk_of_occurs hocc))
  · rintro ⟨h1, h2⟩
    refine ⟨h1, fun n hmem => ?_⟩
    exact (nodeBodyOk_iff n).mpr (h2 n (occurs_of_mem_walk e n hmem))

/-! ## Claims about validate_sql -/

/-- C1: for every SQL string that parses to exactly one top-level statement,
validate accepts it if and only if the top-level construct is a Select, a
Describe, or a Command whose verb is EXPLAIN or SHOW compared
case-insensitively, and every CTE node and every Subquery node anywhere in
the parsed tree has a body that is a Select or a Values construct; a
violation at any depth rejects the whole statement. -/
theorem c1_validate_accept_iff_readonly_shape (parse : ParseFn) (sql : String) (e : Expr)
    (hblank : sql.data.all isWS = false)
    (hparse : parse sql = .ok [some e]) :
    validate_sql parse sql = .ok (true, "This is a read-only SQL statement.") ↔
      SpecReadOnly e := by
  unfold validate_sql
  simp only [hblank, hparse, Bool.false_eq_true, if_false, List.length_cons,
    List.length_nil]
  norm_num
  exact is_read_only_iff_spec e

theorem c1_witness :
    validate_sql (fun _ => .ok [some (.select [])]) "SELECT 1" =
      .ok (true, "This is a read-only SQL statement.") := by
  refine (c1_validate_accept_iff_readonly_shape _ "SELECT 1" (.select [])
    (by decide) rfl).mpr ⟨trivial, fun n hocc => ?_⟩
  cases hocc with
  | refl => trivial
  | child hc _ => simp [Expr.children] at hc

/-- C6: for every input string that parses to more than one top-level
statement, validate rejects with exactly the message "Only one SQL statement
is allowed at a time.", regardless of the content of the individual
statements. (The input is non-blank, as any input with parsed statements
is.) -/
theorem c6_multi_statement_rejected (parse : ParseFn) (sql : String)
    (l : List (Option Expr))
    (hblank : sql.data.all isWS = false)
    (hp : parse sql = .ok l) (hlen : 1 < l.length) :
    validate_sql parse sql = .ok (false, "Only one SQL statement is allowed at a time.") := by
  unfold validate_sql
  simp only [hblank, hp, Bool.false_eq_true, if_false]
  rw [if_pos hlen]

theorem c6_witness :
    validate_sql (fun _ => .ok [some (.select []), some (.other [])])
      "SELECT 1; SELECT 2;" =
      .ok (false, "Only one SQL statement is allowed at a time.") :=
  c6_multi_statement_rejected _ _ [some (.select []), some (.other [])]
    (by decide) rfl (by simp)

/-- C7: for every input string whose strip() is empty (the empty string or
whitespace only), validate rejects with exactly the message "SQL statement
cannot be empty or whitespace.", without attempting to parse the input (the
result does not depend on the parser at all). -/
theorem c7_blank_rejected (parse : ParseFn) (sql : String)
    (h : sql.data.all isWS = true) :
    validate_sql parse sql = .ok (false, "SQL statement cannot be empty or whitespace.") := by
  unfold validate_sql
  rw [if_pos h]

theorem c7_witness :
    validate_sql (fun _ => .error "ParseError: never reached") "  " =
      .ok (false, "SQL statement cannot be empty or whitespace.") :=
  c7_blank_rejected _ "  " (by decide)

/-- C10: for every input string that validate accepts, the returned message
is exactly "This is a read-only SQL statement." — a single fixed string that
never echoes the input. -/
theorem c10_accept_message_fixed (parse : ParseFn) (sql : String) (m : String)
    (h : validate_sql parse sql = .ok (true, m)) :
    m = "This is a read-only SQL statement." := by
  unfold validate_sql at h
  split at h
  · simp at h
  · split at h
    · simp at h
    · split at h
      · simp at h
      · split at h
        · simp at h
        · split at h
          · simp at h
          · split at h
            · simp only [Except.ok.injEq, Prod.mk.injEq] at h
              exact h.2.symm
            · simp at h

theorem c10_witness :
    validate_sql (fun _ => .ok [some (.describe [])]) "DESCRIBE users" =
      .ok (true, "This is a read-only SQL statement.") ∧
    "This is a read-only SQL statement." = "This is a read-only SQL statement." :=
  ⟨rfl, c10_accept_message_fixed (fun _ => .ok [some (.describe [])]) "DESCRIBE users"
    "This is a read-only SQL statement." rfl⟩

/-! ## Claim C2: behaviour when parsing fails

The code calls sqlglot.parse without a try/except. sqlglot surfaces a failed
parse in one of two ways: for input that tokenizes to no statement it returns
a list containing None (handled by validate_sql with the fixed rejection
message), while for malformed SQL it raises ParseError, which validate_sql
propagates to its caller instead of returning a verdict. -/

/-- Parser model that raises, as sqlglot.parse does on malformed SQL such as
"SELECT ((". -/
def parseRaising : ParseFn := fun _ => .error "ParseError: invalid syntax"

/-- C2 counterexample: with a parser that raises (sqlglot.parse on malformed
input), validate_sql propagates the parser error out of the call instead of
returning the fixed rejection verdict; so the claim that parse failure always
yields the fixed-message Verdict is false. -/
theorem c2_counterexample_parser_error_propagates :
    validate_sql parseRaising "SELECT ((" = .error "ParseError: invalid syntax" := by
  rfl

/-- C2 (amended): for every input on which the parser returns normally,
validate returns exactly one Verdict; when the parse yields no statement (a
None entry, sqlglot's result for input such as a bare comment), the verdict
is a rejection whose message is the fixed text followed by a newline and the
original SQL echoed verbatim. When the parser raises, the error propagates
out of validate_sql unchanged. -/
theorem c2_verdict_on_parser_return (parse : ParseFn) (sql : String)
    (hblank : sql.data.all isWS = false) :
    (parse sql = .ok [none] →
      validate_sql parse sql = .ok (false, notValidMsg sql)) ∧
    (∀ err, parse sql = .error err → validate_sql parse sql = .error err) := by
  constructor
  · intro hp
    unfold validate_sql
    simp [hblank, hp]
  · intro err hp
    unfold validate_sql
    simp [hblank, hp]

theorem c2_witness :
    validate_sql (fun _ => .ok [none]) "-- just a comment" =
      .ok (false, notValidMsg "-- just a comment") :=
  (c2_verdict_on_parser_return (fun _ => .ok [none]) "-- just a comment"
    (by decide)).1 rfl

/-! ## The suspicious-pattern guard (src/constants.py, src/utils.py)

SUSPICIOUS_QUERY_REGEXP is, with flags (?im):

  (^|;) sp1* (END|COMMIT|ROLLBACK|ABORT) (sp2+ (WORK|TRANSACTION))? sp3* ;

where each sp is a separator token: a single-line comment (two dashes up to
the end of the line, the dollar anchor), a balanced multi-line comment per
the recursive group of re_mlc, a whitespace character, or a semicolon. The
search succeeds if a match exists anywhere in the text. The matcher below
realises the existence semantics of that search directly; every choice point
of the pattern is deterministic at the character level (separator tokens,
keywords and the closing semicolon start with disjoint characters), which the
equivalence proofs against the declarative grammar below make precise. -/

/-- Consume the remainder of the line after the two dashes of a single-line
comment: the dot of the regex never matches a newline, and the multiline
dollar anchor holds exactly before a newline or at the end, so the comment
extends to the newline (left unconsumed) or to the end of text. -/
def dropLine : List Char → List Char
  | [] => []
  | c :: rest => if c = '\n' then c :: rest else dropLine rest

/-- The characters a single-line comment swallows: up to the newline or end. -/
def takeLine : List Char → List Char
  | [] => []
  | c :: rest => if c = '\n' then [] else c :: takeLine rest

theorem dropLine_length_le : ∀ l : List Char, (dropLine l).length ≤ l.length
  | [] => by simp [dropLine]
  | c :: rest => by
    simp only [dropLine]
    split
    · simp
    · exact Nat.le_trans (dropLine_length_le rest) (Nat.le_succ _)

theorem takeLine_append_dropLine : ∀ l : List Char, takeLine l ++ dropLine l = l
  | [] => by simp [takeLine, dropLine]
  | c :: rest => by
    simp only [takeLine, dropLine]
    split
    · simp
    · simp [takeLine_append_dropLine rest]

theorem newline_not_mem_takeLine : ∀ l : List Char, '\n' ∉ takeLine l
  | [] => by simp [takeLine]
  | c :: rest => by
    simp only [takeLine]
    split
    next hc => simp
    next hc =>
      intro hmem
      rcases List.mem_cons.mp hmem with h | h
      · exact hc h.symm
      · exact newline_not_mem_takeLine rest h

/-- A position where the multiline dollar anchor holds relative to the rest
of the text: end of text or just before a newline. -/
def lineEndOk (s : List Char) : Prop := s = [] ∨ ∃ t, s = '\n' :: t

theorem lineEndOk_dropLine : ∀ l : List Char, lineEndOk (dropLine l)
  | [] => Or.inl rfl
  | c :: rest => by
    simp only [dropLine]
    split
    · exact Or.inr ⟨rest, by simp_all⟩
    · exact lineEndOk_dropLine rest

theorem dropLine_append_of_no_newline :
    ∀ body s : List Char, '\n' ∉ body → lineEndOk s → dropLine (body ++ s) = s
  | [], s, _, hs => by
    rcases hs with rfl | ⟨t, rfl⟩ <;> simp [dropLine]
  | c :: body, s, hb, hs => by
    simp only [List.mem_cons, not_or] at hb
    have hc : ¬ c = '\n' := fun h => hb.1 h.symm
    simp only [List.cons_append, dropLine]
    rw [if_neg hc]
    exact dropLine_append_of_no_newline body s hb.2 hs

/-- Scanner for the balanced multi-line comment group of re_mlc, entered just
after an opening slash-star, carrying the count of additional open nested
comments. The alternatives of the group are mirrored exactly: close on
star-slash, recurse on slash-star, and otherwise consume two characters when
the first is a star or a slash (the two-character alternatives of the group)
or one character otherwise. Returns the text after the matching close, or
none when the comment never balances. -/
def mlcScan : Nat → List Char → Option (List Char)
  | _, [] => none
  | _, [_] => none
  | d, c1 :: c2 :: rest =>
    if c1 = '*' ∧ c2 = '/' then
      (if d = 0 then some rest else mlcScan (d - 1) rest)
    else if c1 = '/' ∧ c2 = '*' then mlcScan (d + 1) rest
    else if c1 = '*' ∨ c1 = '/' then mlcScan d rest
    else mlcScan d (c2 :: rest)

theorem mlcScan_length : ∀ d (l r : List Char), mlcScan d l = some r → r.length + 2 ≤ l.length := by
  intro d l
  induction d, l using mlcScan.induct with
  | case1 x => simp [mlcScan]
  | case2 x head => simp [mlcScan]
  | case3 c1 c2 rest h =>
    intro r hr
    rw [mlcScan, if_pos h, if_pos rfl] at hr
    cases hr; simp
  | case4 d c1 c2 rest h hd ih =>
    intro r hr
    rw [mlcScan, if_pos h, if_neg hd] at hr
    have := ih r hr
    simp; omega
  | case5 d c1 c2 rest h1 h2 ih =>
    intro r hr
    rw [mlcScan, if_neg h1, if_pos h2] at hr
    have := ih r hr
    simp; omega
  | case6 d c1 c2 rest h1 h2 h3 ih =>
    intro r hr
    rw [mlcScan, if_neg h1, if_neg h2, if_pos h3] at hr
    have := ih r hr
    simp; omega
  | case7 d c1 c2 rest h1 h2 h3 ih =>
    intro r hr
    rw [mlcScan, if_neg h1, if_neg h2, if_neg h3] at hr
    have := ih r hr
    simp at this ⊢; omega

/-- Case-insensitive match of an uppercase pattern at the head of the input,
returning the rest of the input; models the effect of the (?i) flag on the
keyword literals. -/
def matchCI : List Char → List Char → Option (List Char)
  | [], s => some s
  | _ :: _, [] => none
  | p :: ps, c :: cs => if c.toUpper = p then matchCI ps cs else none

/-- Attempt the keyword alternation END, COMMIT, ROLLBACK, ABORT. -/
def tryKeyword (s : List Char) : Option (List Char) :=
  match matchCI "END".data s with
  | some r => some r
  | none =>
    match matchCI "COMMIT".data s with
    | some r => some r
    | none =>
      match matchCI "ROLLBACK".data s with
      | some r => some r
      | none => matchCI "ABORT".data s

/-- Attempt the alternation WORK, TRANSACTION. -/
def tryWT (s : List Char) : Option (List Char) :=
  match matchCI "WORK".data s with
  | some r => some r
  | none => matchCI "TRANSACTION".data s

/-- Step bound for the scanner: a successful scan strictly shrinks the text
past the two characters of the opening. -/
theorem mlc_step_lt {r2 r : List Char} (h : mlcScan 0 r2 = some r) :
    r.length < r2.length + 1 + 1 := by
  have h2 := mlcScan_length 0 r2 r h
  omega

/-- Shared separator-consuming loop of the matcher. At the head of the input
it consumes whitespace, a single-line comment, a balanced multi-line comment,
or (when semiStop is false) a semicolon, and loops; when semiStop is true a
semicolon completes the phase instead. At any other head it hands over to the
phase-specific continuation. -/
def sepLoop (semiStop : Bool) (base : List Char → Bool) : List Char → Bool
  | [] => false
  | c :: rest =>
    if c = ';' then
      (if semiStop then true else sepLoop semiStop base rest)
    else if isWS c then sepLoop semiStop base rest
    else if c = '-' then
      match rest with
      | '-' :: r2 => sepLoop semiStop base (dropLine r2)
      | _ => false
    else if c = '/' then
      match rest with
      | '*' :: r2 =>
        match h : mlcScan 0 r2 with
        | some r => sepLoop semiStop base r
        | none => false
      | _ => false
    else base (c :: rest)
termination_by s => s.length
decreasing_by
  all_goals simp
  all_goals first
    | exact Nat.lt_succ_of_le (Nat.le_trans (dropLine_length_le r2) (Nat.le_succ _))
    | exact mlc_step_lt h

/-- Match sp3* followed by the final semicolon of the pattern. A semicolon
both terminates the pattern and is itself a separator; stopping at the first
semicolon realises the existential semantics. -/
def sepThenSemi : List Char → Bool := sepLoop true (fun _ => false)

/-- Continuation after the transaction-control keyword once at least one
separator has been consumed: the optional group may complete with WORK or
TRANSACTION, followed by sp3* and the final semicolon. -/
def wtBase (s : List Char) : Bool :=
  match tryWT s with
  | some r => sepThenSemi r
  | none => false

/-- State after the transaction-control keyword once at least one separator
has been consumed. -/
def afterKwB : List Char → Bool := sepLoop true wtBase

/-- State immediately after the transaction-control keyword: the optional
WORK or TRANSACTION group needs at least one separator first, so only a
semicolon or a separator can continue. -/
def afterKwA : List Char → Bool
  | [] => false
  | c :: rest =>
    if c = ';' then true
    else if isWS c then afterKwB rest
    else if c = '-' then
      match rest with
      | '-' :: r2 => afterKwB (dropLine r2)
      | _ => false
    else if c = '/' then
      match rest with
      | '*' :: r2 =>
        match mlcScan 0 r2 with
        | some r => afterKwB r
        | none => false
      | _ => false
    else false

/-- Continuation at the keyword position: the keyword alternation followed by
the rest of the pattern. -/
def kwBase (s : List Char) : Bool :=
  match tryKeyword s with
  | some r => afterKwA r
  | none => false

/-- Match sp1* followed by the keyword alternation and the rest of the
pattern, starting right after the statement boundary. -/
def matchFrom : List Char → Bool := sepLoop false kwBase

/-- Try matchFrom at every position that directly follows a character
accepted by the boundary test. -/
def searchAuxB (bchar : Char → Bool) : List Char → Bool
  | [] => false
  | c :: rest => (bchar c && matchFrom rest) || searchAuxB bchar rest

/-- Search with a given boundary-character test: position zero is always a
boundary (the caret alternative at the start of text); any later position is
a boundary when the preceding character passes the test. -/
def searchB (bchar : Char → Bool) (s : List Char) : Bool :=
  matchFrom s || searchAuxB bchar s

/-- Boundary characters of the compiled pattern: with the multiline flag the
caret also matches right after a newline, and the other alternative consumes
a semicolon. -/
def boundaryChar (c : Char) : Bool := c = '\n' || c = ';'

/-- Boundary characters as the specification sentence words it: only a
semicolon (start of text or immediately after a semicolon). -/
def semiOnlyChar (c : Char) : Bool := c = ';'

/-- The compiled-regex search over the text of the SQL string. -/
def suspiciousSearch (s : List Char) : Bool := searchB boundaryChar s

/-- Model of check_for_suspicious_sql from src/utils.py: raise when the
search finds a match, otherwise return True. -/
def check_for_suspicious_sql (sql : String) : Except String Bool :=
  if suspiciousSearch sql.data then
    .error ("SQL contains suspicious patterns, execution rejected: " ++ sql)
  else
    .ok true

/-! ## Declarative grammar of the suspicious pattern

The specification describes the pattern in words; the predicates below state
that description directly as a grammar over character lists. A balanced
multi-line comment is an opening slash-star, a body of items, and a closing
star-slash, where an item is a single character other than slash and star, a
slash followed by a non-star, a star followed by a non-slash, or a whole
nested balanced comment (the recursion of re_mlc). -/

inductive CBody : List Char → Prop where
  | nil : CBody []
  | plain {c : Char} {y : List Char} : c ≠ '/' → c ≠ '*' → CBody y → CBody (c :: y)
  | slashOther {c : Char} {y : List Char} : c ≠ '*' → CBody y → CBody ('/' :: c :: y)
  | starOther {c : Char} {y : List Char} : c ≠ '/' → CBody y → CBody ('*' :: c :: y)
  | nested {b y : List Char} : CBody b → CBody y →
      CBody (('/' :: '*' :: (b ++ ['*', '/'])) ++ y)

/-- A balanced multi-line comment: opening slash-star, a body, and the
closing star-slash. -/
def BalC (w : List Char) : Prop :=
  ∃ b, CBody b ∧ w = '/' :: '*' :: (b ++ ['*', '/'])

theorem mlcScan_cons_plain {c : Char} (h1 : c ≠ '/') (h2 : c ≠ '*') (d : Nat) :
    ∀ rest, mlcScan d (c :: rest) = mlcScan d rest
  | [] => by cases rest' : mlcScan d [] <;> simp_all [mlcScan]
  | c2 :: r2 => by
    rw [mlcScan, if_neg (fun h => h2 h.1), if_neg (fun h => h1 h.1),
      if_neg (fun h => h.elim h2 h1)]

theorem mlcScan_cons_slash {c : Char} (h : c ≠ '*') (d : Nat) (rest : List Char) :
    mlcScan d ('/' :: c :: rest) = mlcScan d rest := by
  rw [mlcScan, if_neg (by simp), if_neg (fun hh => h hh.2), if_pos (Or.inr rfl)]

theorem mlcScan_cons_star {c : Char} (h : c ≠ '/') (d : Nat) (rest : List Char) :
    mlcScan d ('*' :: c :: rest) = mlcScan d rest := by
  rw [mlcScan, if_neg (fun hh => h hh.2), if_neg (by simp), if_pos (Or.inl rfl)]

/-- A whole comment body is consumed transparently by the scanner at any
depth. -/
theorem cbody_scan_out {b : List Char} (hb : CBody b) :
    ∀ d rest, mlcScan d (b ++ rest) = mlcScan d rest := by
  induction hb with
  | nil => simp
  | plain h1 h2 _ ih =>
    intro d rest
    rw [List.cons_append, mlcScan_cons_plain h1 h2, ih]
  | slashOther hc _ ih =>
    intro d rest
    rw [List.cons_append, List.cons_append, mlcScan_cons_slash hc, ih]
  | starOther hc _ ih =>
    intro d rest
    rw [List.cons_append, List.cons_append, mlcScan_cons_star hc, ih]
  | nested _ _ ihb ihy =>
    intro d rest
    simp only [List.cons_append, List.append_assoc]
    rw [mlcScan, if_neg (by simp), if_pos ⟨rfl, rfl⟩, ihb]
    simp only [List.cons_append, List.nil_append]
    rw [mlcScan, if_pos ⟨rfl, rfl⟩, if_neg (by omega)]
    simp only [Nat.add_sub_cancel]
    exact ihy d rest

/-- A balanced comment is consumed whole by the scanner: it opens one level,
its body is transparent, and its close pops back to the same depth. -/
theorem balC_scan_out {w : List Char} (hw : BalC w) (d : Nat) (rest : List Char) :
    mlcScan d (w ++ rest) = mlcScan d rest := by
  obtain ⟨b, hb, rfl⟩ := hw
  simp only [List.cons_append, List.append_assoc]
  rw [mlcScan, if_neg (by simp), if_pos ⟨rfl, rfl⟩, cbody_scan_out hb]
  simp only [List.cons_append, List.nil_append]
  rw [mlcScan, if_pos ⟨rfl, rfl⟩, if_neg (by omega)]
  simp

theorem mlcScan_sound_aux : ∀ n : Nat, ∀ l : List Char, ∀ d r, l.length ≤ n →
    mlcScan d l = some r →
    ∃ b m, CBody b ∧ l = b ++ '*' :: '/' :: m ∧
      ((d = 0 ∧ m = r) ∨ ∃ d2, d = d2 + 1 ∧ mlcScan d2 m = some r) := by
  intro n
  induction n with
  | zero =>
    intro l d r hl hm
    interval_cases hlen : l.length
    rw [List.length_eq_zero] at hlen
    subst hlen
    simp [mlcScan] at hm
  | succ n ih =>
    intro l d r hl hm
    match l with
    | [] => simp [mlcScan] at hm
    | [c] => simp [mlcScan] at hm
    | c1 :: c2 :: rest =>
      simp only [List.length_cons] at hl
      by_cases h1 : c1 = '*' ∧ c2 = '/'
      · obtain ⟨rfl, rfl⟩ := h1
        rw [mlcScan, if_pos ⟨rfl, rfl⟩] at hm
        by_cases hd : d = 0
        · subst hd
          rw [if_pos rfl] at hm
          cases hm
          exact ⟨[], r, CBody.nil, by simp, Or.inl ⟨rfl, rfl⟩⟩
        · rw [if_neg hd] at hm
          exact ⟨[], rest, CBody.nil, by simp,
            Or.inr ⟨d - 1, by omega, hm⟩⟩
      · by_cases h2 : c1 = '/' ∧ c2 = '*'
        · obtain ⟨rfl, rfl⟩ := h2
          rw [mlcScan, if_neg h1, if_pos ⟨rfl, rfl⟩] at hm
          obtain ⟨b, m, hb, hrest, hdisj⟩ := ih rest (d + 1) r (by omega) hm
          rcases hdisj with ⟨habs, _⟩ | ⟨d2, hd2, hm2⟩
          · omega
          · have hm2' : mlcScan d m = some r := by
              rwa [show d2 = d from by omega] at hm2
            have hmlen : m.length ≤ n := by
              have := congrArg List.length hrest
              simp [List.length_append] at this
              omega
            obtain ⟨b2, m2, hb2, hm', hdisj2⟩ := ih m d r hmlen hm2'
            refine ⟨('/' :: '*' :: (b ++ ['*', '/'])) ++ b2, m2,
              CBody.nested hb hb2, ?_, hdisj2⟩
            subst hrest hm'
            simp
        · by_cases h3 : c1 = '*' ∨ c1 = '/'
          · rw [mlcScan, if_neg h1, if_neg h2, if_pos h3] at hm
            obtain ⟨b, m, hb, hrest, hdisj⟩ := ih rest d r (by omega) hm
            have hbody : CBody (c1 :: c2 :: b) := by
              rcases h3 with rfl | rfl
              · exact CBody.starOther (fun hh => h1 ⟨rfl, hh⟩) hb
              · exact CBody.slashOther (fun hh => h2 ⟨rfl, hh⟩) hb
            refine ⟨c1 :: c2 :: b, m, hbody, ?_, hdisj⟩
            subst hrest
            simp
          · rw [mlcScan, if_neg h1, if_neg h2, if_neg h3] at hm
            push_neg at h3
            obtain ⟨b, m, hb, hrest, hdisj⟩ := ih (c2 :: rest) d r (by simpa using hl) hm
            refine ⟨c1 :: b, m, CBody.plain h3.2 h3.1 hb, ?_, hdisj⟩
            rw [List.cons_append, ← hrest]

/-- A successful depth-zero scan certifies a balanced comment body before the
closing star-slash. -/
theorem mlcScan_zero_sound {l r : List Char} (h : mlcScan 0 l = some r) :
    ∃ b, CBody b ∧ l = b ++ '*' :: '/' :: r := by
  obtain ⟨b, m, hb, hl, hdisj⟩ := mlcScan_sound_aux l.length l 0 r le_rfl h
  rcases hdisj with ⟨_, rfl⟩ | ⟨d2, hd2, _⟩
  · exact ⟨b, hb, hl⟩
  · omega

/-! ## Separator runs, worded declaratively

SepThen P s holds when s is a run of separator tokens (whitespace, semicolon,
single-line comment to end of line, balanced multi-line comment) followed by
a tail satisfying P; SepThen1 requires at least one token. The single-line
comment token carries the regex dollar constraint: its body is
newline-free and it ends at a line end. -/

inductive SepThen (P : List Char → Prop) : List Char → Prop where
  | done {s : List Char} : P s → SepThen P s
  | ws {c : Char} {s : List Char} : isWS c = true → SepThen P s → SepThen P (c :: s)
  | semi {s : List Char} : SepThen P s → SepThen P (';' :: s)
  | slc {body s : List Char} : '\n' ∉ body → lineEndOk s → SepThen P s →
      SepThen P ('-' :: '-' :: (body ++ s))
  | mlc {w s : List Char} : BalC w → SepThen P s → SepThen P (w ++ s)

inductive SepThen1 (P : List Char → Prop) : List Char → Prop where
  | ws {c : Char} {s : List Char} : isWS c = true → SepThen P s → SepThen1 P (c :: s)
  | semi {s : List Char} : SepThen P s → SepThen1 P (';' :: s)
  | slc {body s : List Char} : '\n' ∉ body → lineEndOk s → SepThen P s →
      SepThen1 P ('-' :: '-' :: (body ++ s))
  | mlc {w s : List Char} : BalC w → SepThen P s → SepThen1 P (w ++ s)

theorem sepThen_mono {P Q : List Char → Prop} (h : ∀ u, P u → Q u) :
    ∀ {s : List Char}, SepThen P s → SepThen Q s := by
  intro s hs
  induction hs with
  | done hp => exact SepThen.done (h _ hp)
  | ws hc _ ih => exact SepThen.ws hc ih
  | semi _ ih => exact SepThen.semi ih
  | slc hb he _ ih => exact SepThen.slc hb he ih
  | mlc hw _ ih => exact SepThen.mlc hw ih

theorem sepThen1_mono {P Q : List Char → Prop} (h : ∀ u, P u → Q u)
    {s : List Char} (hs : SepThen1 P s) : SepThen1 Q s := by
  cases hs with
  | ws hc h2 => exact SepThen1.ws hc (sepThen_mono h h2)
  | semi h2 => exact SepThen1.semi (sepThen_mono h h2)
  | slc hb he h2 => exact SepThen1.slc hb he (sepThen_mono h h2)
  | mlc hw h2 => exact SepThen1.mlc hw (sepThen_mono h h2)

theorem sepThen_union {A B : List Char → Prop} {s : List Char} :
    SepThen (fun u => A u ∨ B u) s ↔ SepThen A s ∨ SepThen B s := by
  constructor
  · intro hs
    induction hs with
    | done hp =>
      rcases hp with hp | hp
      · exact Or.inl (SepThen.done hp)
      · exact Or.inr (SepThen.done hp)
    | ws hc _ ih =>
      rcases ih with ih | ih
      · exact Or.inl (SepThen.ws hc ih)
      · exact Or.inr (SepThen.ws hc ih)
    | semi _ ih =>
      rcases ih with ih | ih
      · exact Or.inl (SepThen.semi ih)
      · exact Or.inr (SepThen.semi ih)
    | slc hb he _ ih =>
      rcases ih with ih | ih
      · exact Or.inl (SepThen.slc hb he ih)
      · exact Or.inr (SepThen.slc hb he ih)
    | mlc hw _ ih =>
      rcases ih with ih | ih
      · exact Or.inl (SepThen.mlc hw ih)
      · exact Or.inr (SepThen.mlc hw ih)
  · rintro (hs | hs)
    · exact sepThen_mono (fun u => Or.inl) hs
    · exact sepThen_mono (fun u => Or.inr) hs

theorem sepThen1_union {A B : List Char → Prop} {s : List Char} :
    SepThen1 (fun u => A u ∨ B u) s ↔ SepThen1 A s ∨ SepThen1 B s := by
  constructor
  · intro hs
    cases hs with
    | ws hc h2 =>
      rcases sepThen_union.mp h2 with h | h
      · exact Or.inl (SepThen1.ws hc h)
      · exact Or.inr (SepThen1.ws hc h)
    | semi h2 =>
      rcases sepThen_union.mp h2 with h | h
      · exact Or.inl (SepThen1.semi h)
      · exact Or.inr (SepThen1.semi h)
    | slc hb he h2 =>
      rcases sepThen_union.mp h2 with h | h
      · exact Or.inl (SepThen1.slc hb he h)
      · exact Or.inr (SepThen1.slc hb he h)
    | mlc hw h2 =>
      rcases sepThen_union.mp h2 with h | h
      · exact Or.inl (SepThen1.mlc hw h)
      · exact Or.inr (SepThen1.mlc hw h)
  · rintro (hs | hs)
    · exact sepThen1_mono (fun u => Or.inl) hs
    · exact sepThen1_mono (fun u => Or.inr) hs

theorem sepThen_iff_done_or_one {P : List Char → Prop} {s : List Char} :
    SepThen P s ↔ P s ∨ SepThen1 P s := by
  constructor
  · intro hs
    cases hs with
    | done hp => exact Or.inl hp
    | ws hc h2 => exact Or.inr (SepThen1.ws hc h2)
    | semi h2 => exact Or.inr (SepThen1.semi h2)
    | slc hb he h2 => exact Or.inr (SepThen1.slc hb he h2)
    | mlc hw h2 => exact Or.inr (SepThen1.mlc hw h2)
  · rintro (hp | hs)
    · exact SepThen.done hp
    · cases hs with
      | ws hc h2 => exact SepThen.ws hc h2
      | semi h2 => exact SepThen.semi h2
      | slc hb he h2 => exact SepThen.slc hb he h2
      | mlc hw h2 => exact SepThen.mlc hw h2

/-! ## The keyword layers of the pattern -/

/-- The tail begins with the final semicolon of the pattern. -/
def SemiStart (s : List Char) : Prop := ∃ t, s = ';' :: t

/-- A transaction-control keyword, compared case-insensitively. -/
def KeywordCI (w : List Char) : Prop :=
  w.map Char.toUpper = "END".data ∨ w.map Char.toUpper = "COMMIT".data ∨
  w.map Char.toUpper = "ROLLBACK".data ∨ w.map Char.toUpper = "ABORT".data

/-- The optional keyword WORK or TRANSACTION, compared case-insensitively. -/
def WTword (w : List Char) : Prop :=
  w.map Char.toUpper = "WORK".data ∨ w.map Char.toUpper = "TRANSACTION".data

/-- Tail starting with WORK or TRANSACTION, then separators and the final
semicolon. -/
def WTtail (s : List Char) : Prop :=
  ∃ w t, WTword w ∧ s = w ++ t ∧ SepThen SemiStart t

/-- What may follow the transaction-control keyword: either separators then
the final semicolon, or at least one separator then WORK or TRANSACTION then
separators and the final semicolon. -/
def AfterKw (s : List Char) : Prop := SepThen SemiStart s ∨ SepThen1 WTtail s

/-- Tail starting with a transaction-control keyword followed by a valid
continuation. -/
def KwTail (s : List Char) : Prop :=
  ∃ w t, KeywordCI w ∧ s = w ++ t ∧ AfterKw t

theorem matchCI_sound : ∀ pat s r : List Char, matchCI pat s = some r →
    ∃ w, s = w ++ r ∧ w.map Char.toUpper = pat := by
  intro pat
  induction pat with
  | nil =>
    intro s r h
    rw [matchCI] at h
    cases h
    exact ⟨[], by simp, by simp⟩
  | cons p ps ih =>
    intro s r h
    match s with
    | [] => rw [matchCI] at h; cases h
    | c :: cs =>
      rw [matchCI] at h
      split at h
      next hc =>
        obtain ⟨w, rfl, hmap⟩ := ih cs r h
        exact ⟨c :: w, rfl, by simp [hmap, hc]⟩
      next hc => cases h

theorem matchCI_complete : ∀ w r : List Char, matchCI (w.map Char.toUpper) (w ++ r) = some r := by
  intro w
  induction w with
  | nil => intro r; rw [List.map_nil, List.nil_append, matchCI]
  | cons c cs ih =>
    intro r
    rw [List.map_cons, List.cons_append, matchCI, if_pos rfl]
    exact ih r

theorem matchCI_none_of_head {p c : Char} (ps t : List Char) (h : ¬ c.toUpper = p) :
    matchCI (p :: ps) (c :: t) = none := by
  rw [matchCI, if_neg h]

theorem map_toUpper_head {w : List Char} {p : Char} {ps : List Char}
    (h : w.map Char.toUpper = p :: ps) :
    ∃ c t, w = c :: t ∧ c.toUpper = p ∧ t.map Char.toUpper = ps := by
  cases w with
  | nil => simp at h
  | cons c t =>
    rw [List.map_cons] at h
    injection h with h1 h2
    exact ⟨c, t, rfl, h1, h2⟩

theorem tryKeyword_sound {s r : List Char} (h : tryKeyword s = some r) :
    ∃ w, s = w ++ r ∧ KeywordCI w := by
  unfold tryKeyword at h
  split at h
  next heq =>
    cases h
    obtain ⟨w, rfl, hmap⟩ := matchCI_sound _ _ _ heq
    exact ⟨w, rfl, Or.inl hmap⟩
  next =>
    split at h
    next heq =>
      cases h
      obtain ⟨w, rfl, hmap⟩ := matchCI_sound _ _ _ heq
      exact ⟨w, rfl, Or.inr (Or.inl hmap)⟩
    next =>
      split at h
      next heq =>
        cases h
        obtain ⟨w, rfl, hmap⟩ := matchCI_sound _ _ _ heq
        exact ⟨w, rfl, Or.inr (Or.inr (Or.inl hmap))⟩
      next =>
        obtain ⟨w, rfl, hmap⟩ := matchCI_sound _ _ _ h
        exact ⟨w, rfl, Or.inr (Or.inr (Or.inr hmap))⟩

theorem tryWT_sound {s r : List Char} (h : tryWT s = some r) :
    ∃ w, s = w ++ r ∧ WTword w := by
  unfold tryWT at h
  split at h
  next heq =>
    cases h
    obtain ⟨w, rfl, hmap⟩ := matchCI_sound _ _ _ heq
    exact ⟨w, rfl, Or.inl hmap⟩
  next =>
    obtain ⟨w, rfl, hmap⟩ := matchCI_sound _ _ _ h
    exact ⟨w, rfl, Or.inr hmap⟩

theorem tryKeyword_complete {w : List Char} (hw : KeywordCI w) (r : List Char) :
    tryKeyword (w ++ r) = some r := by
  rcases hw with hmap | hmap | hmap | hmap
  · unfold tryKeyword
    rw [← hmap, matchCI_complete w r]
  · obtain ⟨c, t, rfl, hc, _⟩ := map_toUpper_head hmap
    unfold tryKeyword
    rw [show ("END".data : List Char) = 'E' :: ['N', 'D'] from by decide,
      List.cons_append, matchCI_none_of_head _ _ (by rw [hc]; decide),
      ← List.cons_append, ← hmap, matchCI_complete]
  · obtain ⟨c, t, rfl, hc, _⟩ := map_toUpper_head hmap
    unfold tryKeyword
    rw [show ("END".data : List Char) = 'E' :: ['N', 'D'] from by decide,
      show ("COMMIT".data : List Char) = 'C' :: ['O', 'M', 'M', 'I', 'T'] from by decide,
      List.cons_append, matchCI_none_of_head _ _ (by rw [hc]; decide),
      matchCI_none_of_head _ _ (by rw [hc]; decide),
      ← List.cons_append, ← hmap, matchCI_complete]
  · obtain ⟨c, t, rfl, hc, _⟩ := map_toUpper_head hmap
    unfold tryKeyword
    rw [show ("END".data : List Char) = 'E' :: ['N', 'D'] from by decide,
      show ("COMMIT".data : List Char) = 'C' :: ['O', 'M', 'M', 'I', 'T'] from by decide,
      show ("ROLLBACK".data : List Char) = 'R' :: ['O', 'L', 'L', 'B', 'A', 'C', 'K'] from by decide,
      List.cons_append, matchCI_none_of_head _ _ (by rw [hc]; decide),
      matchCI_none_of_head _ _ (by rw [hc]; decide),
      matchCI_none_of_head _ _ (by rw [hc]; decide),
      ← List.cons_append, ← hmap, matchCI_complete]

theorem tryWT_complete {w : List Char} (hw : WTword w) (r : List Char) :
    tryWT (w ++ r) = some r := by
  rcases hw with hmap | hmap
  · unfold tryWT
    rw [← hmap, matchCI_complete w r]
  · obtain ⟨c, t, rfl, hc, _⟩ := map_toUpper_head hmap
    unfold tryWT
    rw [show ("WORK".data : List Char) = 'W' :: ['O', 'R', 'K'] from by decide,
      List.cons_append, matchCI_none_of_head _ _ (by rw [hc]; decide),
      ← List.cons_append, ← hmap, matchCI_complete]

/-- The head of a keyword is a letter, hence not a separator character and
not the final semicolon. -/
theorem keyword_head_flags {c : Char}
    (h : c.toUpper = 'E' ∨ c.toUpper = 'C' ∨ c.toUpper = 'R' ∨ c.toUpper = 'A' ∨
      c.toUpper = 'W' ∨ c.toUpper = 'T') :
    ¬ c = ';' ∧ isWS c = false ∧ ¬ c = '-' ∧ ¬ c = '/' := by
  refine ⟨?_, ?_, ?_, ?_⟩
  · rintro rfl
    rcases h with h | h | h | h | h | h <;> exact absurd h (by decide)
  · by_cases hw : isWS c = true
    · simp only [isWS, Bool.or_eq_true, decide_eq_true_eq] at hw
      rcases hw with ((((rfl | rfl) | rfl) | rfl) | rfl) | rfl <;>
        rcases h with h | h | h | h | h | h <;> exact absurd h (by decide)
    · simpa using hw
  · rintro rfl
    rcases h with h | h | h | h | h | h <;> exact absurd h (by decide)
  · rintro rfl
    rcases h with h | h | h | h | h | h <;> exact absurd h (by decide)

theorem keywordCI_head {w : List Char} (hw : KeywordCI w) :
    ∃ c t, w = c :: t ∧
      (c.toUpper = 'E' ∨ c.toUpper = 'C' ∨ c.toUpper = 'R' ∨ c.toUpper = 'A') := by
  rcases hw with hmap | hmap | hmap | hmap
  · obtain ⟨c, t, rfl, hc, _⟩ := map_toUpper_head (hmap.trans (by decide :
      ("END".data : List Char) = 'E' :: ['N', 'D']))
    exact ⟨c, t, rfl, Or.inl hc⟩
  · obtain ⟨c, t, rfl, hc, _⟩ := map_toUpper_head (hmap.trans (by decide :
      ("COMMIT".data : List Char) = 'C' :: ['O', 'M', 'M', 'I', 'T']))
    exact ⟨c, t, rfl, Or.inr (Or.inl hc)⟩
  · obtain ⟨c, t, rfl, hc, _⟩ := map_toUpper_head (hmap.trans (by decide :
      ("ROLLBACK".data : List Char) = 'R' :: ['O', 'L', 'L', 'B', 'A', 'C', 'K']))
    exact ⟨c, t, rfl, Or.inr (Or.inr (Or.inl hc))⟩
  · obtain ⟨c, t, rfl, hc, _⟩ := map_toUpper_head (hmap.trans (by decide :
      ("ABORT".data : List Char) = 'A' :: ['B', 'O', 'R', 'T']))
    exact ⟨c, t, rfl, Or.inr (Or.inr (Or.inr hc))⟩

theorem wtword_head {w : List Char} (hw : WTword w) :
    ∃ c t, w = c :: t ∧ (c.toUpper = 'W' ∨ c.toUpper = 'T') := by
  rcases hw with hmap | hmap
  · obtain ⟨c, t, rfl, hc, _⟩ := map_toUpper_head (hmap.trans (by decide :
      ("WORK".data : List Char) = 'W' :: ['O', 'R', 'K']))
    exact ⟨c, t, rfl, Or.inl hc⟩
  · obtain ⟨c, t, rfl, hc, _⟩ := map_toUpper_head (hmap.trans (by decide :
      ("TRANSACTION".data : List Char) = 'T' :: ['R', 'A', 'N', 'S', 'A', 'C', 'T', 'I', 'O', 'N']))
    exact ⟨c, t, rfl, Or.inr hc⟩

/-! ## Equivalence of the matcher with the declarative grammar -/

theorem sepLoop_nil (stop : Bool) (base : List Char → Bool) :
    sepLoop stop base [] = false := by
  rw [sepLoop]

theorem sepLoop_semi_stop (base : List Char → Bool) (t : List Char) :
    sepLoop true base (';' :: t) = true := by
  rw [sepLoop.eq_def]; simp

theorem sepLoop_semi_go (base : List Char → Bool) (t : List Char) :
    sepLoop false base (';' :: t) = sepLoop false base t := by
  rw [sepLoop.eq_def]; simp

theorem sepLoop_ws (stop : Bool) (base : List Char → Bool) {c : Char}
    (hc : isWS c = true) (t : List Char) :
    sepLoop stop base (c :: t) = sepLoop stop base t := by
  have hne : ¬ c = ';' := by rintro rfl; simp [isWS] at hc
  rw [sepLoop.eq_def]
  simp only [if_neg hne, if_pos hc]

theorem sepLoop_slc (stop : Bool) (base : List Char → Bool) {body : List Char}
    (hb : '\n' ∉ body) {t : List Char} (he : lineEndOk t) :
    sepLoop stop base ('-' :: '-' :: (body ++ t)) = sepLoop stop base t := by
  rw [sepLoop.eq_def]
  simp only [if_neg (by decide : ¬ ('-' = ';')), if_neg (by decide : ¬ (isWS '-' = true)),
    if_pos rfl]
  rw [dropLine_append_of_no_newline body t hb he]
  simp

theorem sepLoop_mlc (stop : Bool) (base : List Char → Bool) {w : List Char}
    (hw : BalC w) (t : List Char) :
    sepLoop stop base (w ++ t) = sepLoop stop base t := by
  obtain ⟨b, hb, rfl⟩ := hw
  have hscan : mlcScan 0 (b ++ '*' :: '/' :: t) = some t := by
    rw [cbody_scan_out hb]
    rw [mlcScan, if_pos ⟨rfl, rfl⟩, if_pos rfl]
  simp only [List.cons_append, List.append_assoc]
  rw [sepLoop.eq_def]
  simp only [if_neg (by decide : ¬ ('/' = ';')), if_neg (by decide : ¬ (isWS '/' = true)),
    if_neg (by decide : ¬ ('/' = '-')), if_pos rfl]
  simp
  split
  next r hr => rw [hscan] at hr; cases hr; rfl
  next hr => rw [hscan] at hr; cases hr

theorem sepLoop_base_step (stop : Bool) (base : List Char → Bool) {c : Char}
    {rest : List Char} (h1 : ¬ c = ';') (h2 : ¬ isWS c = true) (h3 : ¬ c = '-')
    (h4 : ¬ c = '/') :
    sepLoop stop base (c :: rest) = base (c :: rest) := by
  rw [sepLoop.eq_def]
  simp only [if_neg h1, if_neg h2, if_neg h3, if_neg h4]

theorem sepLoop_sound (stop : Bool) (base : List Char → Bool) (P : List Char → Prop)
    (hbase : ∀ c rest, ¬ c = ';' → ¬ isWS c = true → ¬ c = '-' → ¬ c = '/' →
      base (c :: rest) = true → P (c :: rest)) :
    ∀ s, sepLoop stop base s = true →
      SepThen (fun u => (stop = true ∧ SemiStart u) ∨ P u) s := by
  refine sepLoop.induct stop base
    (fun s => sepLoop stop base s = true →
      SepThen (fun u => (stop = true ∧ SemiStart u) ∨ P u) s)
    ?_ ?_ ?_ ?_ ?_ ?_ ?_ ?_ ?_ ?_
  · intro h
    rw [sepLoop_nil] at h
    cases h
  · intro rest hstop _
    exact SepThen.done (Or.inl ⟨hstop, rest, rfl⟩)
  · intro rest hstop ih h
    have hs : stop = false := by revert hstop; cases stop <;> simp
    rw [hs, sepLoop_semi_go, ← hs] at h
    exact SepThen.semi (ih h)
  · intro c rest hne hws ih h
    rw [sepLoop_ws stop base hws] at h
    exact SepThen.ws hws (ih h)
  · intro r2 h1 h2 ih h
    rw [show ('-' :: '-' :: r2 : List Char) = '-' :: '-' :: (takeLine r2 ++ dropLine r2) from
      by rw [takeLine_append_dropLine]] at h ⊢
    rw [sepLoop_slc stop base (newline_not_mem_takeLine r2) (lineEndOk_dropLine r2)] at h
    exact SepThen.slc (newline_not_mem_takeLine r2) (lineEndOk_dropLine r2) (ih h)
  · intro rest hno h1 h2 h
    rw [sepLoop.eq_def] at h
    simp only [if_neg (by decide : ¬ ('-' = ';')), if_neg (by decide : ¬ (isWS '-' = true)),
      eq_self_iff_true, if_true] at h
    cases h
  · intro r2 r hscan h1 h2 h3 ih h
    obtain ⟨b, hb, hr2⟩ := mlcScan_zero_sound hscan
    have hl : ('/' :: '*' :: r2 : List Char) =
        ('/' :: '*' :: (b ++ ['*', '/'])) ++ r := by
      rw [hr2]; simp
    rw [hl] at h ⊢
    rw [sepLoop_mlc stop base ⟨b, hb, rfl⟩] at h
    exact SepThen.mlc ⟨b, hb, rfl⟩ (ih h)
  · intro r2 hscan h1 h2 h3 h
    rw [sepLoop.eq_def] at h
    simp only [if_neg (by decide : ¬ ('/' = ';')), if_neg (by decide : ¬ (isWS '/' = true)),
      if_neg (by decide : ¬ ('/' = '-')), eq_self_iff_true, if_true] at h
    split at h
    next r heq => rw [hscan] at heq; cases heq
    next heq => cases h
  · intro rest hno h1 h2 h3 h
    rw [sepLoop.eq_def] at h
    simp only [if_neg (by decide : ¬ ('/' = ';')), if_neg (by decide : ¬ (isWS '/' = true)),
      if_neg (by decide : ¬ ('/' = '-')), eq_self_iff_true, if_true] at h
    cases h
  · intro c rest h1 h2 h3 h4 h
    rw [sepLoop_base_step stop base h1 h2 h3 h4] at h
    exact SepThen.done (Or.inr (hbase c rest h1 h2 h3 h4 h))

theorem sepLoop_complete (stop : Bool) (base : List Char → Bool) (P : List Char → Prop)
    (hbase : ∀ u, P u → ∃ c t, u = c :: t ∧ ¬ c = ';' ∧ ¬ isWS c = true ∧
      ¬ c = '-' ∧ ¬ c = '/' ∧ base u = true) :
    ∀ s, SepThen (fun u => (stop = true ∧ SemiStart u) ∨ P u) s →
      sepLoop stop base s = true := by
  intro s hs
  induction hs with
  | done hp =>
    rcases hp with ⟨hstop, t, rfl⟩ | hp
    · rw [hstop]
      exact sepLoop_semi_stop base t
    · obtain ⟨c, t, rfl, h1, h2, h3, h4, hb⟩ := hbase _ hp
      rw [sepLoop_base_step stop base h1 h2 h3 h4]
      exact hb
  | ws hc _ ih => rw [sepLoop_ws stop base hc]; exact ih
  | semi _ ih =>
    cases stop with
    | true => exact sepLoop_semi_stop base _
    | false => rw [sepLoop_semi_go]; exact ih
  | slc hb he _ ih => rw [sepLoop_slc stop base hb he]; exact ih
  | mlc hw _ ih => rw [sepLoop_mlc stop base hw]; exact ih

theorem sepThenSemi_iff (s : List Char) : sepThenSemi s = true ↔ SepThen SemiStart s := by
  constructor
  · intro h
    have hs := sepLoop_sound true (fun _ => false) (fun _ => False)
      (fun c rest _ _ _ _ hb => by simp at hb) s h
    exact sepThen_mono (fun u hu => by
      rcases hu with ⟨_, hsem⟩ | hf
      · exact hsem
      · exact hf.elim) hs
  · intro h
    exact sepLoop_complete true (fun _ => false) (fun _ => False)
      (fun u hu => hu.elim) s
      (sepThen_mono (fun u hu => Or.inl ⟨rfl, hu⟩) h)

theorem wtBase_sound {c : Char} {rest : List Char} (hb : wtBase (c :: rest) = true) :
    WTtail (c :: rest) := by
  unfold wtBase at hb
  split at hb
  next r heq =>
    obtain ⟨w, hsplit, hword⟩ := tryWT_sound heq
    exact ⟨w, r, hword, hsplit, (sepThenSemi_iff r).mp hb⟩
  next => cases hb

theorem wtBase_complete {u : List Char} (hu : WTtail u) :
    ∃ c t, u = c :: t ∧ ¬ c = ';' ∧ ¬ isWS c = true ∧ ¬ c = '-' ∧ ¬ c = '/' ∧
      wtBase u = true := by
  obtain ⟨w, t, hword, rfl, hst⟩ := hu
  obtain ⟨c, t2, rfl, hup⟩ := wtword_head hword
  have hflags := keyword_head_flags (by tauto)
  refine ⟨c, t2 ++ t, by simp, hflags.1, by simp [hflags.2.1], hflags.2.2.1,
    hflags.2.2.2, ?_⟩
  simp only [List.cons_append]
  unfold wtBase
  have hc : tryWT (c :: (t2 ++ t)) = some t := by
    have := tryWT_complete hword t
    simpa using this
  rw [hc]
  exact (sepThenSemi_iff t).mpr hst

theorem afterKwB_iff (s : List Char) :
    afterKwB s = true ↔ SepThen (fun u => SemiStart u ∨ WTtail u) s := by
  constructor
  · intro h
    have hs := sepLoop_sound true wtBase WTtail
      (fun c rest _ _ _ _ hb => wtBase_sound hb) s h
    exact sepThen_mono (fun u hu => by
      rcases hu with ⟨_, hsem⟩ | hf
      · exact Or.inl hsem
      · exact Or.inr hf) hs
  · intro h
    exact sepLoop_complete true wtBase WTtail (fun u hu => wtBase_complete hu) s
      (sepThen_mono (fun u hu => by
        rcases hu with hsem | ht
        · exact Or.inl ⟨rfl, hsem⟩
        · exact Or.inr ht) h)

theorem afterKwA_semi (t : List Char) : afterKwA (';' :: t) = true := by
  rw [afterKwA.eq_def]
  simp

theorem afterKwA_ws {c : Char} (hc : isWS c = true) (t : List Char) :
    afterKwA (c :: t) = afterKwB t := by
  have hne : ¬ c = ';' := by rintro rfl; simp [isWS] at hc
  rw [afterKwA.eq_def]
  simp only [if_neg hne, if_pos hc]

theorem afterKwA_slc {body : List Char} (hb : '\n' ∉ body) {t : List Char}
    (he : lineEndOk t) :
    afterKwA ('-' :: '-' :: (body ++ t)) = afterKwB t := by
  rw [afterKwA.eq_def]
  simp only [if_neg (by decide : ¬ ('-' = ';')), if_neg (by decide : ¬ (isWS '-' = true)),
    eq_self_iff_true, if_true]
  rw [dropLine_append_of_no_newline body t hb he]

theorem afterKwA_mlc {w : List Char} (hw : BalC w) (t : List Char) :
    afterKwA (w ++ t) = afterKwB t := by
  obtain ⟨b, hb, rfl⟩ := hw
  have hscan : mlcScan 0 (b ++ '*' :: '/' :: t) = some t := by
    rw [cbody_scan_out hb]
    rw [mlcScan, if_pos ⟨rfl, rfl⟩, if_pos rfl]
  simp only [List.cons_append, List.append_assoc, List.nil_append]
  rw [afterKwA.eq_def]
  simp only [if_neg (by decide : ¬ ('/' = ';')), if_neg (by decide : ¬ (isWS '/' = true)),
    if_neg (by decide : ¬ ('/' = '-')), eq_self_iff_true, if_true]
  rw [hscan]

theorem afterKwA_sound : ∀ {s : List Char}, afterKwA s = true → AfterKw s := by
  intro s h
  match s with
  | [] => rw [afterKwA.eq_def] at h; cases h
  | c :: rest =>
    by_cases hc1 : c = ';'
    · subst hc1
      exact Or.inl (SepThen.done ⟨rest, rfl⟩)
    · by_cases hc2 : isWS c = true
      · rw [afterKwA_ws hc2] at h
        rcases sepThen_union.mp ((afterKwB_iff rest).mp h) with hs | ht
        · exact Or.inl (SepThen.ws hc2 hs)
        · exact Or.inr (SepThen1.ws hc2 ht)
      · by_cases hc3 : c = '-'
        · subst hc3
          match rest with
          | [] => rw [afterKwA.eq_def] at h; simp [isWS] at h
          | c2 :: r2 =>
            by_cases hc2d : c2 = '-'
            · subst hc2d
              rw [show ('-' :: '-' :: r2 : List Char) =
                  '-' :: '-' :: (takeLine r2 ++ dropLine r2) from
                by rw [takeLine_append_dropLine]] at h ⊢
              rw [afterKwA_slc (newline_not_mem_takeLine r2) (lineEndOk_dropLine r2)] at h
              rcases sepThen_union.mp ((afterKwB_iff _).mp h) with hs | ht
              · exact Or.inl
                  (SepThen.slc (newline_not_mem_takeLine r2) (lineEndOk_dropLine r2) hs)
              · exact Or.inr
                  (SepThen1.slc (newline_not_mem_takeLine r2) (lineEndOk_dropLine r2) ht)
            · rw [afterKwA.eq_def] at h
              simp [isWS, hc2d] at h
        · by_cases hc4 : c = '/'
          · subst hc4
            match rest with
            | [] => rw [afterKwA.eq_def] at h; simp [isWS] at h
            | c2 :: r2 =>
              by_cases hc2d : c2 = '*'
              · subst hc2d
                rw [afterKwA.eq_def] at h
                simp only [eq_self_iff_true, if_true,
                  if_neg (by decide : ¬ ('/' = ';')),
                  if_neg (by decide : ¬ (isWS '/' = true)),
                  if_neg (by decide : ¬ ('/' = '-'))] at h
                cases hscan : mlcScan 0 r2 with
                | none => rw [hscan] at h; cases h
                | some r =>
                  rw [hscan] at h
                  obtain ⟨b, hb, hr2⟩ := mlcScan_zero_sound hscan
                  have hl : ('/' :: '*' :: r2 : List Char) =
                      ('/' :: '*' :: (b ++ ['*', '/'])) ++ r := by
                    rw [hr2]; simp
                  rw [hl]
                  rcases sepThen_union.mp ((afterKwB_iff _).mp h) with hs | ht
                  · exact Or.inl (SepThen.mlc ⟨b, hb, rfl⟩ hs)
                  · exact Or.inr (SepThen1.mlc ⟨b, hb, rfl⟩ ht)
              · rw [afterKwA.eq_def] at h
                simp [isWS, hc2d] at h
          · rw [afterKwA.eq_def] at h
            simp [hc1, hc2, hc3, hc4] at h

theorem afterKwA_complete {s : List Char} (h : AfterKw s) : afterKwA s = true := by
  rcases h with h | h
  · cases h with
    | done hp =>
      obtain ⟨t, rfl⟩ := hp
      exact afterKwA_semi t
    | ws hc h2 =>
      rw [afterKwA_ws hc]
      exact (afterKwB_iff _).mpr (sepThen_mono (fun u hu => Or.inl hu) h2)
    | semi h2 => exact afterKwA_semi _
    | slc hb he h2 =>
      rw [afterKwA_slc hb he]
      exact (afterKwB_iff _).mpr (sepThen_mono (fun u hu => Or.inl hu) h2)
    | mlc hw h2 =>
      rw [afterKwA_mlc hw]
      exact (afterKwB_iff _).mpr (sepThen_mono (fun u hu => Or.inl hu) h2)
  · cases h with
    | ws hc h2 =>
      rw [afterKwA_ws hc]
      exact (afterKwB_iff _).mpr (sepThen_mono (fun u hu => Or.inr hu) h2)
    | semi h2 => exact afterKwA_semi _
    | slc hb he h2 =>
      rw [afterKwA_slc hb he]
      exact (afterKwB_iff _).mpr (sepThen_mono (fun u hu => Or.inr hu) h2)
    | mlc hw h2 =>
      rw [afterKwA_mlc hw]
      exact (afterKwB_iff _).mpr (sepThen_mono (fun u hu => Or.inr hu) h2)

theorem kwBase_sound {c : Char} {rest : List Char}
    (hb : kwBase (c :: rest) = true) : KwTail (c :: rest) := by
  unfold kwBase at hb
  split at hb
  next r heq =>
    obtain ⟨w, hsplit, hkw⟩ := tryKeyword_sound heq
    exact ⟨w, r, hkw, hsplit, afterKwA_sound hb⟩
  next => cases hb

theorem kwBase_complete {u : List Char} (hu : KwTail u) :
    ∃ c t, u = c :: t ∧ ¬ c = ';' ∧ ¬ isWS c = true ∧ ¬ c = '-' ∧ ¬ c = '/' ∧
      kwBase u = true := by
  obtain ⟨w, t, hkw, rfl, haft⟩ := hu
  obtain ⟨c, t2, rfl, hup⟩ := keywordCI_head hkw
  have hflags := keyword_head_flags (by tauto)
  refine ⟨c, t2 ++ t, by simp, hflags.1, by simp [hflags.2.1], hflags.2.2.1,
    hflags.2.2.2, ?_⟩
  simp only [List.cons_append]
  unfold kwBase
  have hc : tryKeyword (c :: (t2 ++ t)) = some t := by
    have := tryKeyword_complete hkw t
    simpa using this
  rw [hc]
  exact afterKwA_complete haft

/-- The keyword-phase matcher agrees with the declarative reading: separators
followed by a transaction-control keyword and a valid continuation. -/
theorem matchFrom_iff (s : List Char) : matchFrom s = true ↔ SepThen KwTail s := by
  constructor
  · intro h
    have hs := sepLoop_sound false kwBase KwTail
      (fun c rest h1 h2 h3 h4 hb => kwBase_sound hb) s h
    exact sepThen_mono (fun u hu => by
      rcases hu with ⟨habs, _⟩ | hk
      · cases habs
      · exact hk) hs
  · intro h
    exact sepLoop_complete false kwBase KwTail (fun u hu => kwBase_complete hu) s
      (sepThen_mono (fun u hu => Or.inr hu) h)

/-! ## The search over boundary positions -/

theorem searchAuxB_iff (bchar : Char → Bool) : ∀ s : List Char,
    searchAuxB bchar s = true ↔
      ∃ pre c post, s = pre ++ c :: post ∧ bchar c = true ∧ matchFrom post = true := by
  intro s
  induction s with
  | nil =>
    rw [searchAuxB]
    constructor
    · intro h; cases h
    · rintro ⟨pre, c, post, heq, _, _⟩
      cases pre <;> simp at heq
  | cons a s ih =>
    rw [searchAuxB]
    constructor
    · intro h
      rcases Bool.or_eq_true_iff.mp h with h2 | h2
      · obtain ⟨hb, hm⟩ := Bool.and_eq_true_iff.mp h2
        exact ⟨[], a, s, rfl, hb, hm⟩
      · obtain ⟨pre, c, post, heq, hb, hm⟩ := ih.mp h2
        exact ⟨a :: pre, c, post, by rw [heq]; rfl, hb, hm⟩
    · rintro ⟨pre, c, post, heq, hb, hm⟩
      apply Bool.or_eq_true_iff.mpr
      cases pre with
      | nil =>
        simp only [List.nil_append] at heq
        injection heq with h1 h2
        subst h1; subst h2
        exact Or.inl (Bool.and_eq_true_iff.mpr ⟨hb, hm⟩)
      | cons p pre2 =>
        simp only [List.cons_append] at heq
        injection heq with h1 h2
        subst h1
        exact Or.inr (ih.mpr ⟨pre2, c, post, h2, hb, hm⟩)

theorem searchB_iff (bchar : Char → Bool) (s : List Char) :
    searchB bchar s = true ↔
      ∃ pre post, s = pre ++ post ∧
        (pre = [] ∨ ∃ q c, pre = q ++ [c] ∧ bchar c = true) ∧
        SepThen KwTail post := by
  unfold searchB
  rw [Bool.or_eq_true_iff]
  constructor
  · rintro (h | h)
    · exact ⟨[], s, rfl, Or.inl rfl, (matchFrom_iff s).mp h⟩
    · obtain ⟨pre, c, post, heq, hb, hm⟩ := (searchAuxB_iff bchar s).mp h
      exact ⟨pre ++ [c], post, by rw [heq]; simp, Or.inr ⟨pre, c, rfl, hb⟩,
        (matchFrom_iff post).mp hm⟩
  · rintro ⟨pre, post, heq, hbnd, hsep⟩
    rcases hbnd with rfl | ⟨q, c, rfl, hb⟩
    · simp only [List.nil_append] at heq
      subst heq
      exact Or.inl ((matchFrom_iff _).mpr hsep)
    · refine Or.inr ((searchAuxB_iff bchar s).mpr
        ⟨q, c, post, ?_, hb, (matchFrom_iff post).mpr hsep⟩)
      rw [heq]; simp

/-- The suspicious pattern, worded as the compiled regex behaves: a match of
separators, transaction-control keyword, optional WORK or TRANSACTION after
at least one separator, separators and a final semicolon, starting at the
start of text, right after a newline (multiline caret), or right after a
semicolon. -/
def SpecSuspicious (s : List Char) : Prop :=
  ∃ pre post, s = pre ++ post ∧
    (pre = [] ∨ (∃ q, pre = q ++ ['\n']) ∨ (∃ q, pre = q ++ [';'])) ∧
    SepThen KwTail post

/-- The suspicious pattern as the specification sentence words the boundary:
only the start of text or a position immediately after a semicolon. -/
def SpecSuspiciousSemiOnly (s : List Char) : Prop :=
  ∃ pre post, s = pre ++ post ∧
    (pre = [] ∨ (∃ q, pre = q ++ [';'])) ∧
    SepThen KwTail post

theorem suspicious_iff_spec (s : List Char) :
    suspiciousSearch s = true ↔ SpecSuspicious s := by
  unfold suspiciousSearch
  rw [searchB_iff]
  unfold SpecSuspicious
  constructor
  · rintro ⟨pre, post, heq, hbnd, hsep⟩
    refine ⟨pre, post, heq, ?_, hsep⟩
    rcases hbnd with rfl | ⟨q, c, rfl, hb⟩
    · exact Or.inl rfl
    · have : c = '\n' ∨ c = ';' := by simpa [boundaryChar] using hb
      rcases this with rfl | rfl
      · exact Or.inr (Or.inl ⟨q, rfl⟩)
      · exact Or.inr (Or.inr ⟨q, rfl⟩)
  · rintro ⟨pre, post, heq, hbnd, hsep⟩
    refine ⟨pre, post, heq, ?_, hsep⟩
    rcases hbnd with rfl | ⟨q, rfl⟩ | ⟨q, rfl⟩
    · exact Or.inl rfl
    · exact Or.inr ⟨q, '\n', rfl, by simp [boundaryChar]⟩
    · exact Or.inr ⟨q, ';', rfl, by simp [boundaryChar]⟩

theorem semiOnly_iff_spec (s : List Char) :
    searchB semiOnlyChar s = true ↔ SpecSuspiciousSemiOnly s := by
  rw [searchB_iff]
  unfold SpecSuspiciousSemiOnly
  constructor
  · rintro ⟨pre, post, heq, hbnd, hsep⟩
    refine ⟨pre, post, heq, ?_, hsep⟩
    rcases hbnd with rfl | ⟨q, c, rfl, hb⟩
    · exact Or.inl rfl
    · have : c = ';' := by simpa [semiOnlyChar] using hb
      subst this
      exact Or.inr ⟨q, rfl⟩
  · rintro ⟨pre, post, heq, hbnd, hsep⟩
    refine ⟨pre, post, heq, ?_, hsep⟩
    rcases hbnd with rfl | ⟨q, rfl⟩
    · exact Or.inl rfl
    · exact Or.inr ⟨q, ';', rfl, by simp [semiOnlyChar]⟩

/-! ## Claims about the suspicious-pattern guard -/

/-- C3 counterexample: the scan signals suspicious on the text
x-newline-END-semicolon, although that text has no match at the start of text
or after any semicolon, the only boundaries the claim admits; the multiline
flag of the compiled pattern also matches right after a newline, which the
claim's wording omits. -/
theorem c3_counterexample_line_start_boundary :
    suspiciousSearch "x\nEND;".data = true ∧
      ¬ SpecSuspiciousSemiOnly "x\nEND;".data := by
  constructor
  · rw [show ("x\nEND;".data : List Char) = ['x', '\n', 'E', 'N', 'D', ';'] from by decide]
    simp [suspiciousSearch, searchB, searchAuxB, boundaryChar, matchFrom, sepLoop, kwBase,
      tryKeyword, matchCI, afterKwA, afterKwB, wtBase, tryWT, sepThenSemi, isWS, dropLine,
      mlcScan]
  · intro hs
    have h2 := (semiOnly_iff_spec _).mpr hs
    rw [show ("x\nEND;".data : List Char) = ['x', '\n', 'E', 'N', 'D', ';'] from by decide] at h2
    simp [searchB, searchAuxB, semiOnlyChar, matchFrom, sepLoop, kwBase,
      tryKeyword, matchCI, afterKwA, afterKwB, wtBase, tryWT, sepThenSemi, isWS, dropLine,
      mlcScan] at h2

/-- C3 (amended): the suspicious-pattern scan raises if and only if the text
contains, at a statement boundary — start of text, immediately after a
newline (the scan is multiline), or immediately after a semicolon — an
optional run of separator tokens (single-line comments to end of line,
balanced multi-line comments, whitespace, or semicolons), then one of END,
COMMIT, ROLLBACK, ABORT case-insensitively, optionally followed — separated
by at least one separator token — by WORK or TRANSACTION, then another
separator run and a terminating semicolon; any such match anywhere in the
text signals suspicious. -/
theorem c3_suspicious_iff_spec (sql : String) :
    check_for_suspicious_sql sql =
      .error ("SQL contains suspicious patterns, execution rejected: " ++ sql) ↔
      SpecSuspicious sql.data := by
  unfold check_for_suspicious_sql
  by_cases h : suspiciousSearch sql.data
  · rw [if_pos h]
    simp only [true_iff]
    exact (suspicious_iff_spec _).mp h
  · rw [if_neg h]
    constructor
    · intro habs
      cases habs
    · intro hs
      exact absurd ((suspicious_iff_spec _).mpr hs) h

/-- C5: within the suspicious-pattern guard, a balanced multi-line comment —
even when nested — is consumed as one separator, both in the run before the
transaction-control keyword and in the run before the terminating semicolon,
so an input carrying such a comment still signals suspicious; a comment run
that does not balance does not complete a match. -/
theorem c5_nested_comment_balanced :
    (∀ w rest, BalC w → matchFrom (w ++ rest) = matchFrom rest) ∧
    (∀ w rest, BalC w → sepThenSemi (w ++ rest) = sepThenSemi rest) ∧
    suspiciousSearch "/* /* */ */END;".data = true ∧
    suspiciousSearch "/*/* */END;".data = false := by
  refine ⟨fun w rest hw => sepLoop_mlc false kwBase hw rest,
    fun w rest hw => sepLoop_mlc true (fun _ => false) hw rest, ?_, ?_⟩
  · rw [show ("/* /* */ */END;".data : List Char) =
      ['/', '*', ' ', '/', '*', ' ', '*', '/', ' ', '*', '/', 'E', 'N', 'D', ';'] from by decide]
    simp [suspiciousSearch, searchB, searchAuxB, boundaryChar, matchFrom, sepLoop, kwBase,
      tryKeyword, matchCI, afterKwA, afterKwB, wtBase, tryWT, sepThenSemi, isWS, dropLine,
      mlcScan]
  · rw [show ("/*/* */END;".data : List Char) =
      ['/', '*', '/', '*', ' ', '*', '/', 'E', 'N', 'D', ';'] from by decide]
    simp [suspiciousSearch, searchB, searchAuxB, boundaryChar, matchFrom, sepLoop, kwBase,
      tryKeyword, matchCI, afterKwA, afterKwB, wtBase, tryWT, sepThenSemi, isWS, dropLine,
      mlcScan]

/-- A nested balanced comment, as a concrete instance of the grammar. -/
theorem balC_nested_example : BalC ("/* /* */ */".data) := by
  refine ⟨[' ', '/', '*', ' ', '*', '/', ' '], ?_, by decide⟩
  exact CBody.plain (by decide) (by decide)
    (CBody.nested (CBody.plain (by decide) (by decide) CBody.nil)
      (CBody.plain (by decide) (by decide) CBody.nil))

theorem c5_witness :
    matchFrom ("/* /* */ */".data ++ "END;".data) = matchFrom ("END;".data) ∧
      matchFrom ("END;".data) = true := by
  constructor
  · exact c5_nested_comment_balanced.1 ("/* /* */ */".data) ("END;".data) balC_nested_example
  · rw [show ("END;".data : List Char) = ['E', 'N', 'D', ';'] from by decide]
    simp [matchFrom, sepLoop, kwBase, tryKeyword, matchCI, afterKwA, isWS]

/-! ## Gate ordering in execute_sql_tool (src/server.py)

The handler first calls validate_sql and raises on a rejecting verdict, then
inside the try block calls check_for_suspicious_sql (which raises on a
match), and only after both have accepted does it call db.run_query. The
trace below records the observable steps of that control flow in order; an
exception ends the trace. -/

inductive GateStep where
  | validateRaised
  | validateRejected
  | validateAccepted
  | scanRejected
  | scanPassed
  | dbEngaged
deriving DecidableEq

/-- Ordered trace of execute_sql_tool up to the database call. -/
def execute_sql_steps (parse : ParseFn) (sql : String) : List GateStep :=
  match validate_sql parse sql with
  | .error _ => [.validateRaised]
  | .ok (false, _) => [.validateRejected]
  | .ok (true, _) =>
    if suspiciousSearch sql.data then [.validateAccepted, .scanRejected]
    else [.validateAccepted, .scanPassed, .dbEngaged]

/-- C4: the database execution resource is engaged exactly when the
classifier accepted and the suspicious-pattern scan found nothing, and in
that case the trace shows both gates completing with accepting results
before the database step; a rejection from either gate makes the execution
step unreachable. -/
theorem c4_gates_precede_execution (parse : ParseFn) (sql : String) :
    (GateStep.dbEngaged ∈ execute_sql_steps parse sql ↔
      (∃ m, validate_sql parse sql = .ok (true, m)) ∧
        suspiciousSearch sql.data = false) ∧
    (GateStep.dbEngaged ∈ execute_sql_steps parse sql →
      execute_sql_steps parse sql =
        [.validateAccepted, .scanPassed, .dbEngaged]) := by
  unfold execute_sql_steps
  split
  next e heq => simp [heq]
  next m heq => simp [heq]
  next m heq =>
    by_cases hsusp : suspiciousSearch sql.data
    · rw [if_pos hsusp]
      simp [heq, hsusp]
    · rw [if_neg hsusp]
      simp only [Bool.not_eq_true] at hsusp
      simp [heq, hsusp]

theorem c4_witness :
    execute_sql_steps (fun _ => .ok [some (.select [])]) "SELECT 1" =
      [.validateAccepted, .scanPassed, .dbEngaged] := by
  have h := c4_gates_precede_execution (fun _ => .ok [some (.select [])]) "SELECT 1"
  refine h.2 (h.1.mpr ⟨⟨"This is a read-only SQL statement.", rfl⟩, ?_⟩)
  rw [show ("SELECT 1".data : List Char) = ['S', 'E', 'L', 'E', 'C', 'T', ' ', '1'] from
    by decide]
  simp [suspiciousSearch, searchB, searchAuxB, boundaryChar, matchFrom, sepLoop, kwBase,
    tryKeyword, matchCI, afterKwA, afterKwB, wtBase, tryWT, sepThenSemi, isWS, dropLine,
    mlcScan]

/-! ## The literal-quoting module (src/utils.py: quote_sql_literal)

quote_sql_literal delegates to the sqlalchemy literal renderer with the
postgresql dialect; that renderer is not part of the repository.

Modelled from the spec: quote accepts strings, numbers, booleans, null and
date values and renders each as a dialect-correct literal (strings are
wrapped in single quotes with every embedded single quote doubled, the
escaping rule of the dialect); a value of an unsupported type makes the
renderer raise a compile error instead of emitting text. -/

inductive SqlValue where
  | strV (s : String)
  | intV (n : Int)
  | boolV (b : Bool)
  | nullV
  | dateV (y m d : Nat)
  | unsupportedV (tag : String)

/-- Double every single quote, the dialect's escaping for string literals. -/
def escapeQuotes : List Char → List Char
  | [] => []
  | c :: rest =>
    if c = '\'' then '\'' :: '\'' :: escapeQuotes rest
    else c :: escapeQuotes rest

/-- Modelled from the spec: the sqlalchemy literal renderer behind
quote_sql_literal (not in src). Strings become quoted literals with doubled
embedded quotes; numbers, booleans, null and dates render as literals of the
dialect; an unsupported value type raises. -/
def quote_sql_literal : SqlValue → Except String String
  | .strV s => .ok ("'" ++ String.mk (escapeQuotes s.data) ++ "'")
  | .intV n => .ok (toString n)
  | .boolV b => .ok (if b then "true" else "false")
  | .nullV => .ok "NULL"
  | .dateV y m d =>
      .ok ("'" ++ toString y ++ "-" ++ toString m ++ "-" ++ toString d ++ "'")
  | .unsupportedV _ =>
      .error "No literal value renderer is available for literal value"

/-- Reader of a single-quoted literal of the dialect, after the opening
quote: a doubled quote is one quote character of the content, a single quote
closes; returns the content and the rest of the input. -/
def readQuoted : List Char → Option (List Char × List Char)
  | [] => none
  | c :: rest =>
    if c = '\'' then
      match rest with
      | [] => some ([], [])
      | c2 :: rest2 =>
        if c2 = '\'' then (readQuoted rest2).map (fun p => ('\'' :: p.1, p.2))
        else some ([], c2 :: rest2)
    else (readQuoted rest).map (fun p => (c :: p.1, p.2))

/-- Parse a string literal of the dialect at the head of the input. -/
def parseStringLiteral : List Char → Option (List Char × List Char)
  | '\'' :: rest => readQuoted rest
  | _ => none

theorem readQuoted_roundtrip : ∀ (l rest : List Char),
    rest.head? ≠ some '\'' →
    readQuoted (escapeQuotes l ++ '\'' :: rest) = some (l, rest) := by
  intro l
  induction l with
  | nil =>
    intro rest hrest
    rw [escapeQuotes, List.nil_append, readQuoted.eq_def]
    simp only [if_pos rfl]
    match rest with
    | [] => rfl
    | c2 :: t =>
      have hc2 : ¬ c2 = '\'' := fun h => hrest (by rw [h]; rfl)
      simp [hc2]
  | cons c l ih =>
    intro rest hrest
    by_cases hc : c = '\''
    · subst hc
      rw [escapeQuotes]
      simp only [if_pos rfl, List.cons_append]
      rw [readQuoted.eq_def]
      simp only [eq_self_iff_true, if_true, List.cons_append]
      rw [ih rest hrest]
      rfl
    · rw [escapeQuotes]
      simp only [if_neg hc, List.cons_append]
      rw [readQuoted.eq_def]
      simp only [if_neg hc]
      rw [ih rest hrest]
      rfl

/-- C8: quote applied to O'Brien produces the self-contained literal
'O''Brien'; embedded verbatim before any template continuation that does not
itself begin with a quote, reparsing in the dialect recovers exactly the
original string and leaves the continuation untouched, so the embedded value
cannot alter the structure of the surrounding query. -/
theorem c8_quote_obrien_roundtrip :
    quote_sql_literal (.strV "O'Brien") = .ok "'O''Brien'" ∧
    (∀ rest : List Char, rest.head? ≠ some '\'' →
      parseStringLiteral ("'O''Brien'".data ++ rest) = some ("O'Brien".data, rest)) := by
  constructor
  · rfl
  · intro rest hrest
    rw [show ("'O''Brien'".data : List Char) =
      '\'' :: (escapeQuotes ("O'Brien".data) ++ ['\'']) from by decide]
    rw [List.cons_append, parseStringLiteral, List.append_assoc]
    exact readQuoted_roundtrip ("O'Brien".data) rest hrest

theorem c8_witness :
    parseStringLiteral ("'O''Brien'".data ++ " AND x = 1".data) =
      some ("O'Brien".data, " AND x = 1".data) :=
  c8_quote_obrien_roundtrip.2 (" AND x = 1".data) (by decide)

/-- Supported value kinds of the quoting module. -/
def SqlValue.supported : SqlValue → Bool
  | .unsupportedV _ => false
  | _ => true

/-- C9: quote renders every supported value kind (strings, numbers,
booleans, null, dates) as a literal — for strings, one that reparses in the
dialect to exactly the original content — and fails closed on any
unsupported value type by raising instead of emitting text. -/
theorem c9_quote_fail_closed :
    (∀ v : SqlValue, v.supported = true → ∃ out, quote_sql_literal v = .ok out) ∧
    (∀ s : String, ∀ out, quote_sql_literal (.strV s) = .ok out →
      parseStringLiteral out.data = some (s.data, [])) ∧
    (∀ tag, quote_sql_literal (.unsupportedV tag) =
      .error "No literal value renderer is available for literal value") := by
  refine ⟨?_, ?_, fun tag => rfl⟩
  · intro v hv
    cases v with
    | strV s => exact ⟨_, rfl⟩
    | intV n => exact ⟨_, rfl⟩
    | boolV b => exact ⟨_, rfl⟩
    | nullV => exact ⟨_, rfl⟩
    | dateV y m d => exact ⟨_, rfl⟩
    | unsupportedV tag => cases hv
  · intro s out hout
    have hout2 : out = "'" ++ String.mk (escapeQuotes s.data) ++ "'" := by
      injection hout with h
      exact h.symm
    subst hout2
    rw [show (("'" ++ String.mk (escapeQuotes s.data) ++ "'").data : List Char) =
      '\'' :: (escapeQuotes s.data ++ '\'' :: []) from by
        simp [String.data_append]]
    rw [parseStringLiteral]
    exact readQuoted_roundtrip s.data [] (by simp)

theorem c9_witness :
    quote_sql_literal (.strV "a'b") = .ok "'a''b'" ∧
    parseStringLiteral ("'a''b'".data) = some ("a'b".data, []) :=
  ⟨rfl, c9_quote_fail_closed.2.1 "a'b" "'a''b'" rfl⟩

end RedshiftMCP
